import Mathlib

/-! HookableEvent (Source/Core/Common/HookableEvent.h).

A shallow embedding of the `Common::HookableEvent<EventName, CallbackArgs...>`
class template: its static members `m_listeners` (one vector per template
instantiation), the `HookImpl` objects it allocates, and the operations
`Register`, `Trigger`, `Remove` and the `HookImpl` destructor.

Conventions of the embedding:

* a `HookImpl*` is the address of the object, a natural number; the address
  returned by `std::make_unique` is chosen by the allocator and is an input of
  `Register` (it may be an address that was freed before);
* every operation of the class holds `m_mutex` from its first to its last
  statement (`std::lock_guard`), so an operation is one atomic state change;
* a callback is code of a collaborator. In the first part it acts on the
  collaborator's own state `World`, may end by raising a failure, and calls no
  operation of the class. Callbacks that call `Register`, `Trigger` or destroy
  handles, and the mutexes they meet, are the subject of the part `Nested`,
  which agrees with the first part on callbacks that call no operation
  (`Nested.Trigger_ofPlain`);
* `DEBUG_LOG_FMT` writes a diagnostic line and has no effect on the state.
-/

set_option linter.unusedSectionVars false

namespace Common

/-- Address of an object in memory: the value of a `HookImpl*`. -/
abbrev Addr := Nat

/-- `using EventHook = std::unique_ptr<HookBase>`: the owning pointer to the
listener object, represented by the address it owns. -/
abbrev EventHook := Addr

/-- The template arguments of one instantiation of `HookableEvent`: the string
literal `EventName` and the list of types `CallbackArgs...` (`Ty` is the type
of C++ type names). Two instantiations are the same class exactly when both
components agree. -/
structure ChannelId (Ty : Type) where
  EventName : String
  CallbackArgs : List Ty
  deriving DecidableEq

/-- Values for a parameter pack `CallbackArgs...`: one value of each type, in
order (`Val t` is the set of values of the C++ type `t`). -/
def ArgPack {Ty : Type} (Val : Ty → Type) : List Ty → Type
  | [] => Unit
  | t :: ts => Val t × ArgPack Val ts

/-- `using CallbackType = std::function<void(CallbackArgs...)>`: run on the
collaborator state, the call yields the new state and the failure it raised,
if any. -/
abbrev CallbackType {Ty : Type} (Val : Ty → Type) (World Err : Type) (c : ChannelId Ty) :=
  ArgPack Val c.CallbackArgs → World → World × Option Err

/-- `struct HookImpl final : public HookBase` of the instantiation `c`. -/
structure HookImpl {Ty : Type} (Val : Ty → Type) (World Err : Type) (c : ChannelId Ty) where
  m_fn : CallbackType Val World Err c
  m_name : String

/-- A live object derived from `HookBase`: its dynamic type (the instantiation
whose `HookImpl` it is, which selects the destructor run through the virtual
`~HookBase`), its members, and a ghost `serial` number that tells apart
objects created at the same address at different times. -/
structure Cell {Ty : Type} (Val : Ty → Type) (World Err : Type) where
  chan : ChannelId Ty
  impl : HookImpl Val World Err chan
  serial : Nat

/-- The process state the class template reads and writes: for each
instantiation its static `m_listeners`, the live `HookImpl` objects by
address, the number of `HookImpl` objects constructed so far (ghost), and the
state of the collaborators that the callbacks act on. -/
structure Sys {Ty : Type} (Val : Ty → Type) (World Err : Type) where
  m_listeners : ChannelId Ty → List Addr
  heap : Addr → Option (Cell Val World Err)
  serials : Nat
  world : World

/-- How a call of `Trigger` ends: it returns, a callback's failure leaves it,
or it dereferences a pointer to no live `HookImpl` of its own class. -/
inductive Completion (Err : Type) where
  | returned : Completion Err
  | raised (e : Err) : Completion Err
  | undefined : Completion Err

section Model

variable {Ty : Type} [DecidableEq Ty] {Val : Ty → Type} {World Err : Type}

/-- State at program start: `inline static std::vector<HookImpl*> m_listeners = {}`
in every instantiation, no `HookImpl` object yet. -/
def Sys.init (w : World) : Sys Val World Err :=
  { m_listeners := fun _ => [], heap := fun _ => none, serials := 0, world := w }

/-- `HookableEvent::Register(callback, name)` of instantiation `c`;
`p` is the address `std::make_unique<HookImpl>` returns (allocation is taken to succeed).
```
auto handle = std::make_unique<HookImpl>(callback, std::move(name));
m_listeners.push_back(handle.get());
return handle;
``` -/
def HookableEvent.Register (c : ChannelId Ty) (callback : CallbackType Val World Err c)
    (name : String) (p : Addr) (s : Sys Val World Err) : EventHook × Sys Val World Err :=
  let handle : EventHook := p
  (handle,
   { s with
     heap := fun q => if q = p then some ⟨c, ⟨callback, name⟩, s.serials⟩ else s.heap q
     m_listeners := fun d => if d = c then s.m_listeners d ++ [handle] else s.m_listeners d
     serials := s.serials + 1 })

/-- `HookableEvent::Remove(handle)` of instantiation `c`:
`std::erase(m_listeners, handle)` drops every element equal to the pointer and
keeps the others in order. -/
def HookableEvent.Remove (c : ChannelId Ty) (handle : Addr) (s : Sys Val World Err) :
    Sys Val World Err :=
  { s with
    m_listeners := fun d =>
      if d = c then (s.m_listeners d).filter (fun q => decide (q ≠ handle)) else s.m_listeners d }

/-- Destruction of an `EventHook` that owns the object at `hook`: the virtual
destructor runs `~HookImpl() override { HookableEvent::Remove(this); }` of the
object's own instantiation, then the storage is released. There is no result
when `hook` owns no live object. -/
def EventHook.destroy (hook : EventHook) (s : Sys Val World Err) : Option (Sys Val World Err) :=
  match s.heap hook with
  | none => none
  | some cell =>
    let s1 := HookableEvent.Remove cell.chan hook s
    some { s1 with heap := fun q => if q = hook then none else s1.heap q }

/-- Dereference of a `HookImpl*` of instantiation `c`: the object at `p`, when a
live object of that type is there. -/
def Sys.deref (s : Sys Val World Err) (c : ChannelId Ty) (p : Addr) :
    Option (HookImpl Val World Err c) :=
  match s.heap p with
  | none => none
  | some cell => if h : cell.chan = c then some (h ▸ cell.impl) else none

/-- Outcome of the loop of `Trigger`: the calls `handle->m_fn(args...)` made, in
order, the collaborator state they left, and how the loop ended. -/
structure Delivery {Ty : Type} (Val : Ty → Type) (World Err : Type) (c : ChannelId Ty) where
  invoked : List (Addr × ArgPack Val c.CallbackArgs)
  world : World
  completion : Completion Err

/-- The loop `for (const auto& handle : m_listeners) handle->m_fn(args...);` over
the pointers still to visit. A failure raised by a callback leaves the loop. -/
def HookableEvent.forEach (s : Sys Val World Err) (c : ChannelId Ty)
    (args : ArgPack Val c.CallbackArgs) : List Addr → World → Delivery Val World Err c
  | [], w => ⟨[], w, Completion.returned⟩
  | handle :: rest, w =>
    match s.deref c handle with
    | none => ⟨[], w, Completion.undefined⟩
    | some h =>
      match h.m_fn args w with
      | (w1, some e) => ⟨[(handle, args)], w1, Completion.raised e⟩
      | (w1, none) =>
        let r := HookableEvent.forEach s c args rest w1
        ⟨(handle, args) :: r.invoked, r.world, r.completion⟩

/-- Result of a call of `Trigger`: the state after it and the outcome of its loop. -/
structure TriggerResult {Ty : Type} (Val : Ty → Type) (World Err : Type) (c : ChannelId Ty) where
  sys : Sys Val World Err
  invoked : List (Addr × ArgPack Val c.CallbackArgs)
  completion : Completion Err

/-- `HookableEvent::Trigger(args...)` of instantiation `c`. -/
def HookableEvent.Trigger (c : ChannelId Ty) (args : ArgPack Val c.CallbackArgs)
    (s : Sys Val World Err) : TriggerResult Val World Err c :=
  let r := HookableEvent.forEach s c args (s.m_listeners c) s.world
  ⟨{ s with world := r.world }, r.invoked, r.completion⟩

/-- One call made by a collaborator. -/
inductive Op {Ty : Type} (Val : Ty → Type) (World Err : Type) where
  | register (c : ChannelId Ty) (callback : CallbackType Val World Err c) (name : String)
      (p : Addr) : Op Val World Err
  | trigger (c : ChannelId Ty) (args : ArgPack Val c.CallbackArgs) : Op Val World Err
  | destroy (hook : EventHook) : Op Val World Err

/-- Serial number of the object at `p`, if one is live. -/
def Sys.serialAt (s : Sys Val World Err) (p : Addr) : Option Nat :=
  (s.heap p).map Cell.serial

/-- Effect of one call, with the serial numbers of the listeners it invoked.
`register` has a result only when the allocator's address holds no live
object, `destroy` only when the handle owns one. A failure that leaves
`Trigger` is the caller's to handle; the program goes on. -/
def Op.step : Op Val World Err → Sys Val World Err → Option (Sys Val World Err × List Nat)
  | .register c callback name p, s =>
    if (s.heap p).isNone then some ((HookableEvent.Register c callback name p s).2, []) else none
  | .trigger c args, s =>
    let r := HookableEvent.Trigger c args s
    some (r.sys, r.invoked.filterMap (fun call => s.serialAt call.1))
  | .destroy hook, s => (EventHook.destroy hook s).map (fun s1 => (s1, []))

/-- A sequence of calls, with the serial numbers of all listeners invoked. -/
def Op.run : List (Op Val World Err) → Sys Val World Err → Option (Sys Val World Err × List Nat)
  | [], s => some (s, [])
  | op :: ops, s =>
    match op.step s with
    | none => none
    | some (s1, log1) =>
      match Op.run ops s1 with
      | none => none
      | some (s2, log2) => some (s2, log1 ++ log2)

/-- States the program can be in: reached from program start by calls. -/
def Sys.Reachable (s : Sys Val World Err) : Prop :=
  ∃ (w : World) (ops : List (Op Val World Err)) (log : List Nat),
    Op.run ops (Sys.init w) = some (s, log)

/-- The collaborator state after the callbacks of `hooks` ran in order. -/
def worldAfter {c : ChannelId Ty} (args : ArgPack Val c.CallbackArgs)
    (hooks : List (HookImpl Val World Err c)) (w : World) : World :=
  hooks.foldl (fun w1 h => (h.m_fn args w1).1) w

/-- Consistency of the registries with the live objects. -/
structure Sys.WF (s : Sys Val World Err) : Prop where
  live : ∀ c p, p ∈ s.m_listeners c → ∃ cell, s.heap p = some cell ∧ cell.chan = c
  listed : ∀ p cell, s.heap p = some cell → p ∈ s.m_listeners cell.chan
  nodup : ∀ c, (s.m_listeners c).Nodup
  serial_lt : ∀ p cell, s.heap p = some cell → cell.serial < s.serials
  serial_inj : ∀ p q a b, s.heap p = some a → s.heap q = some b → a.serial = b.serial → p = q

/-- No live object carries the serial number `u`, and none will. -/
def Sys.Retired (s : Sys Val World Err) (u : Nat) : Prop :=
  u < s.serials ∧ ∀ p cell, s.heap p = some cell → cell.serial ≠ u

end Model

/-! ## A concrete program

The channel `("Test", int)` with listeners that record `"<label>:<n>"`, used to
run the operations on explicit inputs. -/

namespace Example

/-- Names of the C++ types that occur as callback arguments here. -/
inductive CType where
  | int : CType
  | string : CType
  deriving DecidableEq

/-- Values of those types. -/
def CType.Val : CType → Type
  | .int => Int
  | .string => String

/-- `using TestEvent = HookableEvent<"Test", int>`. -/
def TestEvent : ChannelId CType := ⟨"Test", [CType.int]⟩

/-- `using OtherEvent = HookableEvent<"Other", int>`: same argument types,
another name. -/
def OtherEvent : ChannelId CType := ⟨"Other", [CType.int]⟩

/-- A callback that appends `"<label>:<n>"` to the recorded sequence. -/
def recorder (c : ChannelId CType) (label : String) (render : ArgPack CType.Val c.CallbackArgs → String) :
    CallbackType CType.Val (List String) String c :=
  fun args w => (w ++ [label ++ ":" ++ render args], none)

/-- Rendering of the argument of `TestEvent` and `OtherEvent`. -/
def showInt (args : Int × Unit) : String := toString args.1

/-- A callback that records `"boom"` and then fails. -/
def failing : CallbackType CType.Val (List String) String TestEvent :=
  fun _ w => (w ++ ["boom"], some "failure")

/-- Listener `L1`. -/
def first : HookImpl CType.Val (List String) String TestEvent :=
  ⟨recorder TestEvent "first" showInt, "L1"⟩

/-- Listener `L2`. -/
def second : HookImpl CType.Val (List String) String TestEvent :=
  ⟨recorder TestEvent "second" showInt, "L2"⟩

/-- A listener whose callback fails. -/
def bad : HookImpl CType.Val (List String) String TestEvent := ⟨failing, "bad"⟩

/-- Program start with nothing recorded. -/
def start : Sys CType.Val (List String) String := Sys.init []

/-- `L1` registered at address 100, then `L2` at address 200. -/
def registered : Sys CType.Val (List String) String :=
  (HookableEvent.Register TestEvent second.m_fn second.m_name 200
    (HookableEvent.Register TestEvent first.m_fn first.m_name 100 start).2).2

/-- The calls that lead to `registered`. -/
def registeredOps : List (Op CType.Val (List String) String) :=
  [Op.register TestEvent first.m_fn first.m_name 100,
   Op.register TestEvent second.m_fn second.m_name 200]

/-- Two listeners with the same callback and the same name, at 100 and 200. -/
def twins : Sys CType.Val (List String) String :=
  (HookableEvent.Register TestEvent first.m_fn first.m_name 200
    (HookableEvent.Register TestEvent first.m_fn first.m_name 100 start).2).2

/-- The calls that lead to `twins`. -/
def twinsOps : List (Op CType.Val (List String) String) :=
  [Op.register TestEvent first.m_fn first.m_name 100,
   Op.register TestEvent first.m_fn first.m_name 200]

/-- `L1` at 100, the failing listener at 200, `L2` at 300. -/
def withBad : Sys CType.Val (List String) String :=
  (HookableEvent.Register TestEvent second.m_fn second.m_name 300
    (HookableEvent.Register TestEvent bad.m_fn bad.m_name 200
      (HookableEvent.Register TestEvent first.m_fn first.m_name 100 start).2).2).2

/-- The calls that lead to `withBad`. -/
def withBadOps : List (Op CType.Val (List String) String) :=
  [Op.register TestEvent first.m_fn first.m_name 100,
   Op.register TestEvent bad.m_fn bad.m_name 200,
   Op.register TestEvent second.m_fn second.m_name 300]

/-- `L1` at 100 on `TestEvent` and a listener at 200 on `OtherEvent`. -/
def twoChannels : Sys CType.Val (List String) String :=
  (HookableEvent.Register OtherEvent (recorder OtherEvent "other" showInt) "L3" 200
    (HookableEvent.Register TestEvent first.m_fn first.m_name 100 start).2).2

/-- The calls that lead to `twoChannels`. -/
def twoChannelsOps : List (Op CType.Val (List String) String) :=
  [Op.register TestEvent first.m_fn first.m_name 100,
   Op.register OtherEvent (recorder OtherEvent "other" showInt) "L3" 200]

/-- The scenario of the specification: register `L1` and `L2`, `Trigger(5)`,
destroy the handle of `L1`, `Trigger(7)`. -/
def specRun : List (Op CType.Val (List String) String) :=
  [Op.register TestEvent first.m_fn first.m_name 100,
   Op.register TestEvent second.m_fn second.m_name 200,
   Op.trigger TestEvent ((5 : Int), ()),
   Op.destroy 100,
   Op.trigger TestEvent ((7 : Int), ())]

end Example

/-! ## Callbacks that call the class

`m_mutex` and `m_listeners` are static members of each instantiation, and
`Trigger` runs `handle->m_fn(args...)` while it holds the mutex of its own
instantiation only. The body of a callback may therefore call `Register`,
`Trigger` or destroy a handle of any instantiation; on the instantiation whose
`Trigger` is running, the call waits for a mutex its own thread holds and never
returns. Here the body of a callback is a list of statements, run by one
thread, and `m_mutex` is part of the state. -/

namespace Nested

/-- One statement of collaborator code: code on the collaborator's own state
(which may raise a failure), `auto h = D::Register(callback, name)` with the
handle kept (`p` is the address the allocator gives), `D::Trigger(args...)`,
or the destruction of a handle. -/
inductive Stmt {Ty : Type} (Val : Ty → Type) (World Err : Type) where
  | act (f : World → World × Option Err) : Stmt Val World Err
  | register (d : ChannelId Ty)
      (callback : ArgPack Val d.CallbackArgs → List (Stmt Val World Err))
      (name : String) (p : Addr) : Stmt Val World Err
  | trigger (d : ChannelId Ty) (args : ArgPack Val d.CallbackArgs) : Stmt Val World Err
  | destroy (hook : EventHook) : Stmt Val World Err

/-- `std::function<void(CallbackArgs...)>` whose body is a list of statements. -/
abbrev CallbackType {Ty : Type} (Val : Ty → Type) (World Err : Type) (c : ChannelId Ty) :=
  ArgPack Val c.CallbackArgs → List (Stmt Val World Err)

/-- `struct HookImpl final : public HookBase` of the instantiation `c`. -/
structure HookImpl {Ty : Type} (Val : Ty → Type) (World Err : Type) (c : ChannelId Ty) where
  m_fn : CallbackType Val World Err c
  m_name : String

/-- A live `HookImpl`: dynamic type, members, ghost serial number. -/
structure Cell {Ty : Type} (Val : Ty → Type) (World Err : Type) where
  chan : ChannelId Ty
  impl : HookImpl Val World Err chan
  serial : Nat

/-- The process state: per instantiation the static `m_listeners` and whether
`m_mutex` is held, the live `HookImpl` objects, the ghost object count, the
collaborator state. -/
structure Sys {Ty : Type} (Val : Ty → Type) (World Err : Type) where
  m_listeners : ChannelId Ty → List Addr
  m_mutex : ChannelId Ty → Bool
  heap : Addr → Option (Cell Val World Err)
  serials : Nat
  world : World

/-- What the thread did, in order: entered `Register` of `d` (allocating at
`p`), entered `Trigger` of `d`, entered `Remove(p)` of `d`, or the loop of
`Trigger` of `d` called `p->m_fn`. -/
inductive Event (Ty : Type) where
  | register (d : ChannelId Ty) (p : Addr) : Event Ty
  | trigger (d : ChannelId Ty) : Event Ty
  | remove (d : ChannelId Ty) (p : Addr) : Event Ty
  | invoke (d : ChannelId Ty) (p : Addr) : Event Ty
  deriving DecidableEq

/-- How a piece of code ends: it returns; a failure leaves it; the thread waits
for a mutex it holds itself; it dereferences a pointer to no live `HookImpl`
of the class; the input describes no execution (the allocator gives an address
in use, a handle owns no object); or the nesting bound was reached. -/
inductive Exit (Err : Type) where
  | returned : Exit Err
  | raised (e : Err) : Exit Err
  | blocked : Exit Err
  | undefined : Exit Err
  | invalid : Exit Err
  | unfinished : Exit Err
  deriving DecidableEq

/-- A run of a piece of code: state reached, events in order, how it ended. -/
structure Run {Ty : Type} (Val : Ty → Type) (World Err : Type) where
  sys : Sys Val World Err
  trace : List (Event Ty)
  exit : Exit Err

section NestedModel

variable {Ty : Type} [DecidableEq Ty] {Val : Ty → Type} {World Err : Type}

/-- Program start: every `m_listeners` empty, no mutex held, no object. -/
def Sys.init (w : World) : Sys Val World Err :=
  { m_listeners := fun _ => [], m_mutex := fun _ => false, heap := fun _ => none,
    serials := 0, world := w }

/-- `std::lock_guard lock(m_mutex)` of instantiation `c` taken. -/
def Sys.lock (s : Sys Val World Err) (c : ChannelId Ty) : Sys Val World Err :=
  { s with m_mutex := fun d => if d = c then true else s.m_mutex d }

/-- The `lock_guard` of instantiation `c` destroyed. -/
def Sys.unlock (s : Sys Val World Err) (c : ChannelId Ty) : Sys Val World Err :=
  { s with m_mutex := fun d => if d = c then false else s.m_mutex d }

/-- `HookableEvent::Register(callback, name)` of instantiation `c`, with `p` the
address `std::make_unique<HookImpl>` returns. The mutex is taken first and
released on return. -/
def HookableEvent.Register (c : ChannelId Ty) (callback : CallbackType Val World Err c)
    (name : String) (p : Addr) (s : Sys Val World Err) : Run Val World Err :=
  if s.m_mutex c then ⟨s, [Event.register c p], Exit.blocked⟩
  else if (s.heap p).isSome then ⟨s, [Event.register c p], Exit.invalid⟩
  else
    ⟨{ s with
       heap := fun q => if q = p then some ⟨c, ⟨callback, name⟩, s.serials⟩ else s.heap q
       m_listeners := fun d => if d = c then s.m_listeners d ++ [p] else s.m_listeners d
       serials := s.serials + 1 },
     [Event.register c p], Exit.returned⟩

/-- `HookableEvent::Remove(handle)` of instantiation `c`: under the mutex,
`std::erase(m_listeners, handle)`. -/
def HookableEvent.Remove (c : ChannelId Ty) (handle : Addr) (s : Sys Val World Err) :
    Run Val World Err :=
  if s.m_mutex c then ⟨s, [Event.remove c handle], Exit.blocked⟩
  else
    ⟨{ s with
       m_listeners := fun d =>
         if d = c then (s.m_listeners d).filter (fun q => decide (q ≠ handle))
         else s.m_listeners d },
     [Event.remove c handle], Exit.returned⟩

/-- Destruction of the `EventHook` that owns the object at `hook`:
`~HookImpl() override { HookableEvent::Remove(this); }` of the object's own
instantiation, then the storage is released. -/
def EventHook.destroy (hook : EventHook) (s : Sys Val World Err) : Run Val World Err :=
  match s.heap hook with
  | none => ⟨s, [], Exit.invalid⟩
  | some cell =>
    let r := HookableEvent.Remove cell.chan hook s
    match r.exit with
    | Exit.returned =>
      ⟨{ r.sys with heap := fun q => if q = hook then none else r.sys.heap q }, r.trace,
        Exit.returned⟩
    | _ => r

/-- Dereference of a `HookImpl*` of instantiation `c`. -/
def Sys.deref (s : Sys Val World Err) (c : ChannelId Ty) (p : Addr) :
    Option (HookImpl Val World Err c) :=
  match s.heap p with
  | none => none
  | some cell => if h : cell.chan = c then some (h ▸ cell.impl) else none

/-- The loop `for (const auto& handle : m_listeners) handle->m_fn(args...);` over
the pointers still to visit; `runBody` runs the body of a callback. The loop is
left when a callback does not return. The loop runs with the mutex of `c` held,
so no statement run meanwhile writes `m_listeners` of `c` (`exec_locked`) and
the pointers to visit are those of the vector itself. -/
def HookableEvent.forEach (runBody : List (Stmt Val World Err) → Sys Val World Err → Run Val World Err)
    (c : ChannelId Ty) (args : ArgPack Val c.CallbackArgs) :
    List Addr → Sys Val World Err → Run Val World Err
  | [], s => ⟨s, [], Exit.returned⟩
  | handle :: rest, s =>
    match s.deref c handle with
    | none => ⟨s, [], Exit.undefined⟩
    | some h =>
      let r := runBody (h.m_fn args) s
      match r.exit with
      | Exit.returned =>
        let r2 := HookableEvent.forEach runBody c args rest r.sys
        ⟨r2.sys, Event.invoke c handle :: (r.trace ++ r2.trace), r2.exit⟩
      | _ => ⟨r.sys, Event.invoke c handle :: r.trace, r.exit⟩

/-- `HookableEvent::Trigger(args...)` of instantiation `c`: the mutex is taken,
the loop runs, and the `lock_guard` is destroyed when the loop returns or a
failure leaves it. -/
def HookableEvent.Trigger (runBody : List (Stmt Val World Err) → Sys Val World Err → Run Val World Err)
    (c : ChannelId Ty) (args : ArgPack Val c.CallbackArgs) (s : Sys Val World Err) :
    Run Val World Err :=
  if s.m_mutex c then ⟨s, [Event.trigger c], Exit.blocked⟩
  else
    let r := HookableEvent.forEach runBody c args (s.m_listeners c) (s.lock c)
    match r.exit with
    | Exit.returned => ⟨r.sys.unlock c, Event.trigger c :: r.trace, Exit.returned⟩
    | Exit.raised e => ⟨r.sys.unlock c, Event.trigger c :: r.trace, Exit.raised e⟩
    | x => ⟨r.sys, Event.trigger c :: r.trace, x⟩

/-- One statement. -/
def Stmt.run (runBody : List (Stmt Val World Err) → Sys Val World Err → Run Val World Err) :
    Stmt Val World Err → Sys Val World Err → Run Val World Err
  | .act f, s =>
    match f s.world with
    | (w1, none) => ⟨{ s with world := w1 }, [], Exit.returned⟩
    | (w1, some e) => ⟨{ s with world := w1 }, [], Exit.raised e⟩
  | .register d callback name p, s => HookableEvent.Register d callback name p s
  | .trigger d args, s => HookableEvent.Trigger runBody d args s
  | .destroy hook, s => EventHook.destroy hook s

/-- Statements in order, up to the first that does not return. -/
def execWith (runBody : List (Stmt Val World Err) → Sys Val World Err → Run Val World Err) :
    List (Stmt Val World Err) → Sys Val World Err → Run Val World Err
  | [], s => ⟨s, [], Exit.returned⟩
  | st :: rest, s =>
    let r := st.run runBody s
    match r.exit with
    | Exit.returned =>
      let r2 := execWith runBody rest r.sys
      ⟨r2.sys, r.trace ++ r2.trace, r2.exit⟩
    | _ => r

/-- Code run with callbacks nested at most `depth` deep. -/
def exec : Nat → List (Stmt Val World Err) → Sys Val World Err → Run Val World Err
  | 0, _, s => ⟨s, [], Exit.unfinished⟩
  | depth + 1, body, s => execWith (exec depth) body s

end NestedModel

namespace Demo

open Example

/-- Program start with nothing recorded. -/
def start : Sys CType.Val (List String) String := Sys.init []

end Demo

section Bridge

variable {Ty : Type} [DecidableEq Ty] {Val : Ty → Type} {World Err : Type}

/-- A callback of the first part, which only acts on the collaborator state, as
a callback body: one `act` statement. -/
def ofCallback {c : ChannelId Ty} (h : Common.HookImpl Val World Err c) :
    HookImpl Val World Err c :=
  ⟨fun args => [Stmt.act (h.m_fn args)], h.m_name⟩

/-- A state of the first part as a state of this part, with the mutexes as
given by `held`. -/
def ofPlain (s : Common.Sys Val World Err) (held : ChannelId Ty → Bool) : Sys Val World Err :=
  { m_listeners := s.m_listeners
    m_mutex := held
    heap := fun p => (s.heap p).map (fun cell => ⟨cell.chan, ofCallback cell.impl, cell.serial⟩)
    serials := s.serials
    world := s.world }

/-- The way a `Trigger` of the first part ends, as an `Exit`. -/
def ofCompletion : Completion Err → Exit Err
  | .returned => Exit.returned
  | .raised e => Exit.raised e
  | .undefined => Exit.undefined

end Bridge

end Nested

end Common

/-! ## Lemmas -/

namespace Common

section Lemmas

variable {Ty : Type} [DecidableEq Ty] {Val : Ty → Type} {World Err : Type}

theorem Sys.init_wf (w : World) : (Sys.init w : Sys Val World Err).WF := by
  constructor <;> simp [Sys.init]

theorem Register_wf {s : Sys Val World Err} (hs : s.WF) (c : ChannelId Ty)
    (callback : CallbackType Val World Err c) (name : String) (p : Addr)
    (hp : s.heap p = none) : (HookableEvent.Register c callback name p s).2.WF := by
  have hnot : ∀ d, p ∉ s.m_listeners d := by
    intro d hmem
    obtain ⟨cell, hc, _⟩ := hs.live d p hmem
    rw [hp] at hc
    cases hc
  constructor
  · intro d q hq
    simp only [HookableEvent.Register] at hq ⊢
    by_cases hqp : q = p
    · subst hqp
      by_cases hd : d = c
      · subst hd
        exact ⟨⟨d, ⟨callback, name⟩, s.serials⟩, by simp, rfl⟩
      · simp only [hd, if_false] at hq
        exact absurd hq (hnot d)
    · simp only [hqp, if_false]
      by_cases hd : d = c
      · subst hd
        simp only [if_true, List.mem_append, List.mem_singleton] at hq
        rcases hq with hq | hq
        · exact hs.live _ q hq
        · exact absurd hq hqp
      · simp only [hd, if_false] at hq
        exact hs.live d q hq
  · intro q cell hq
    simp only [HookableEvent.Register] at hq ⊢
    by_cases hqp : q = p
    · subst hqp
      simp only [if_true, Option.some.injEq] at hq
      subst hq
      simp
    · simp only [hqp, if_false] at hq
      have := hs.listed q cell hq
      by_cases hd : cell.chan = c
      · simp [hd] at this ⊢
        exact Or.inl this
      · simpa [hd] using this
  · intro d
    simp only [HookableEvent.Register]
    by_cases hd : d = c
    · subst hd
      simp only [if_true]
      rw [List.nodup_append]
      refine ⟨hs.nodup d, List.nodup_singleton p, ?_⟩
      intro a ha hb
      simp only [List.mem_singleton] at hb
      subst hb
      exact hnot d ha
    · simpa [hd] using hs.nodup d
  · intro q cell hq
    simp only [HookableEvent.Register] at hq ⊢
    by_cases hqp : q = p
    · subst hqp
      simp only [if_true, Option.some.injEq] at hq
      subst hq
      simp
    · simp only [hqp, if_false] at hq
      exact Nat.lt_succ_of_lt (hs.serial_lt q cell hq)
  · intro q r a b hq hr hab
    simp only [HookableEvent.Register] at hq hr
    by_cases hqp : q = p <;> by_cases hrp : r = p
    · rw [hqp, hrp]
    · subst hqp
      simp only [if_true, Option.some.injEq, hrp, if_false] at hq hr
      subst hq
      have := hs.serial_lt r b hr
      simp at hab
      omega
    · subst hrp
      simp only [if_true, Option.some.injEq, hqp, if_false] at hq hr
      subst hr
      have := hs.serial_lt q a hq
      simp at hab
      omega
    · simp only [hqp, hrp, if_false] at hq hr
      exact hs.serial_inj q r a b hq hr hab

theorem destroy_wf {s s1 : Sys Val World Err} (hs : s.WF) (hook : EventHook)
    (hd : EventHook.destroy hook s = some s1) : s1.WF := by
  unfold EventHook.destroy at hd
  cases hcell : s.heap hook with
  | none => rw [hcell] at hd; cases hd
  | some cell =>
    rw [hcell] at hd
    simp only [Option.some.injEq] at hd
    subst hd
    constructor
    · intro d q hq
      simp only [HookableEvent.Remove] at hq ⊢
      have hmem : q ∈ s.m_listeners d := by
        by_cases hdc : d = cell.chan
        · simp only [hdc, if_true] at hq
          rw [hdc]
          exact (List.mem_filter.mp hq).1
        · simpa [hdc] using hq
      have hne : q ≠ hook := by
        intro hqh
        subst hqh
        obtain ⟨cell1, h1, h2⟩ := hs.live d q hmem
        rw [hcell] at h1
        simp only [Option.some.injEq] at h1
        subst h1
        simp [h2] at hq
      simp only [hne, if_false]
      exact hs.live d q hmem
    · intro q cell1 hq
      simp only [HookableEvent.Remove] at hq ⊢
      by_cases hqh : q = hook
      · simp [hqh] at hq
      · simp only [hqh, if_false] at hq
        have := hs.listed q cell1 hq
        by_cases hdc : cell1.chan = cell.chan
        · simp only [hdc, if_true]
          rw [hdc] at this
          exact List.mem_filter.mpr ⟨this, by simpa using hqh⟩
        · simpa [hdc] using this
    · intro d
      simp only [HookableEvent.Remove]
      by_cases hdc : d = cell.chan
      · simp only [hdc, if_true]
        exact (hs.nodup _).filter _
      · simpa [hdc] using hs.nodup d
    · intro q cell1 hq
      simp only [HookableEvent.Remove] at hq ⊢
      by_cases hqh : q = hook
      · simp [hqh] at hq
      · simp only [hqh, if_false] at hq
        exact hs.serial_lt q cell1 hq
    · intro q r a b hq hr hab
      simp only [HookableEvent.Remove] at hq hr
      by_cases hqh : q = hook
      · simp [hqh] at hq
      · by_cases hrh : r = hook
        · simp [hrh] at hr
        · simp only [hqh, hrh, if_false] at hq hr
          exact hs.serial_inj q r a b hq hr hab

theorem Trigger_wf {s : Sys Val World Err} (hs : s.WF) (c : ChannelId Ty)
    (args : ArgPack Val c.CallbackArgs) : (HookableEvent.Trigger c args s).sys.WF :=
  ⟨hs.live, hs.listed, hs.nodup, hs.serial_lt, hs.serial_inj⟩

theorem step_wf {s s1 : Sys Val World Err} {log : List Nat} (hs : s.WF) (op : Op Val World Err)
    (h : op.step s = some (s1, log)) : s1.WF := by
  cases op with
  | register c callback name p =>
    simp only [Op.step] at h
    split at h
    · rename_i hp
      simp only [Option.some.injEq, Prod.mk.injEq] at h
      rw [← h.1]
      exact Register_wf hs c callback name p (by simpa using hp)
    · cases h
  | trigger c args =>
    simp only [Op.step, Option.some.injEq, Prod.mk.injEq] at h
    rw [← h.1]
    exact Trigger_wf hs c args
  | destroy hook =>
    simp only [Op.step, Option.map_eq_some', Prod.mk.injEq] at h
    obtain ⟨s2, h2, h3, _⟩ := h
    subst h3
    exact destroy_wf hs hook h2

theorem run_cons {op : Op Val World Err} {ops : List (Op Val World Err)}
    {s s2 : Sys Val World Err} {log : List Nat} (h : Op.run (op :: ops) s = some (s2, log)) :
    ∃ s1 log1 log2, op.step s = some (s1, log1) ∧ Op.run ops s1 = some (s2, log2) ∧
      log = log1 ++ log2 := by
  simp only [Op.run] at h
  cases h1 : op.step s with
  | none => rw [h1] at h; cases h
  | some r1 =>
    obtain ⟨s1, log1⟩ := r1
    rw [h1] at h
    simp only at h
    cases h2 : Op.run ops s1 with
    | none => rw [h2] at h; cases h
    | some r2 =>
      obtain ⟨s3, log2⟩ := r2
      rw [h2] at h
      simp only [Option.some.injEq, Prod.mk.injEq] at h
      exact ⟨s1, log1, log2, rfl, by rw [h2, h.1], h.2.symm⟩

theorem run_wf {ops : List (Op Val World Err)} {s s2 : Sys Val World Err} {log : List Nat}
    (hs : s.WF) (h : Op.run ops s = some (s2, log)) : s2.WF := by
  induction ops generalizing s log with
  | nil =>
    simp only [Op.run, Option.some.injEq, Prod.mk.injEq] at h
    rw [← h.1]
    exact hs
  | cons op ops ih =>
    obtain ⟨s1, log1, log2, h1, h2, _⟩ := run_cons h
    exact ih (step_wf hs op h1) h2

theorem Sys.Reachable.wf {s : Sys Val World Err} (hs : s.Reachable) : s.WF := by
  obtain ⟨w, ops, log, h⟩ := hs
  exact run_wf (Sys.init_wf w) h

end Lemmas

section Delivery

variable {Ty : Type} [DecidableEq Ty] {Val : Ty → Type} {World Err : Type}

theorem deref_of_heap {s : Sys Val World Err} {c : ChannelId Ty} {p : Addr}
    {h : HookImpl Val World Err c} {n : Nat} (hh : s.heap p = some ⟨c, h, n⟩) :
    s.deref c p = some h := by
  simp [Sys.deref, hh]

theorem deref_of_live {s : Sys Val World Err} {c : ChannelId Ty} {p : Addr}
    {cell : Cell Val World Err} (hh : s.heap p = some cell) (hc : cell.chan = c) :
    ∃ h, s.deref c p = some h := by
  obtain ⟨chan, impl, serial⟩ := cell
  simp only at hc
  subst hc
  exact ⟨impl, deref_of_heap hh⟩

theorem worldAfter_cons {c : ChannelId Ty} (args : ArgPack Val c.CallbackArgs)
    (h : HookImpl Val World Err c) (hooks : List (HookImpl Val World Err c)) (w : World) :
    worldAfter args (h :: hooks) w = worldAfter args hooks (h.m_fn args w).1 := rfl

/-- The loop over listeners none of which fails: all are called, in order. -/
theorem forEach_no_failure (s : Sys Val World Err) (c : ChannelId Ty)
    (args : ArgPack Val c.CallbackArgs) (Ls : List (HookImpl Val World Err c × Addr))
    (hLs : ∀ L ∈ Ls, s.deref c L.2 = some L.1) (w : World)
    (hok : ∀ e, (HookableEvent.forEach s c args (Ls.map Prod.snd) w).completion
      ≠ Completion.raised e) :
    HookableEvent.forEach s c args (Ls.map Prod.snd) w =
      ⟨Ls.map (fun L => (L.2, args)), worldAfter args (Ls.map Prod.fst) w,
        Completion.returned⟩ := by
  induction Ls generalizing w with
  | nil => rfl
  | cons L rest ih =>
    have hL := hLs L (List.mem_cons_self _ _)
    simp only [List.map_cons] at hok ⊢
    unfold HookableEvent.forEach at hok ⊢
    rw [hL] at hok ⊢
    simp only at hok ⊢
    cases hr : L.1.m_fn args w with
    | mk w1 oe =>
      rw [hr] at hok
      cases oe with
      | some e => exact absurd rfl (hok e)
      | none =>
        simp only at hok ⊢
        have := ih (fun L1 h1 => hLs L1 (List.mem_cons_of_mem _ h1)) w1 hok
        rw [this, worldAfter_cons, hr]

/-- The loop up to the first listener that fails. -/
theorem forEach_first_failure (s : Sys Val World Err) (c : ChannelId Ty)
    (args : ArgPack Val c.CallbackArgs) (Lpre : List (HookImpl Val World Err c × Addr))
    (Lk : HookImpl Val World Err c × Addr) (post : List Addr)
    (hpre : ∀ L ∈ Lpre, s.deref c L.2 = some L.1) (hk : s.deref c Lk.2 = some Lk.1)
    (w w1 : World) (e : Err)
    (hno : ∀ pre1 L pre2, Lpre = pre1 ++ L :: pre2 →
      (L.1.m_fn args (worldAfter args (pre1.map Prod.fst) w)).2 = none)
    (hfail : Lk.1.m_fn args (worldAfter args (Lpre.map Prod.fst) w) = (w1, some e)) :
    HookableEvent.forEach s c args (Lpre.map Prod.snd ++ Lk.2 :: post) w =
      ⟨(Lpre.map Prod.snd ++ [Lk.2]).map (fun p => (p, args)), w1, Completion.raised e⟩ := by
  induction Lpre generalizing w with
  | nil =>
    simp only [List.map_nil, List.nil_append, List.map_cons]
    unfold HookableEvent.forEach
    rw [hk]
    simp only
    have : Lk.1.m_fn args w = (w1, some e) := hfail
    rw [this]
  | cons L rest ih =>
    have hL := hpre L (List.mem_cons_self _ _)
    have h0 := hno [] L rest rfl
    simp only [List.map_cons, List.cons_append]
    unfold HookableEvent.forEach
    rw [hL]
    simp only
    cases hr : L.1.m_fn args w with
    | mk w2 oe =>
      have h0 : oe = none := by
        have : (L.1.m_fn args w).2 = none := h0
        rw [hr] at this
        exact this
      subst h0
      simp only
      have := ih (fun L1 h1 => hpre L1 (List.mem_cons_of_mem _ h1)) w2
        (by
          intro pre1 L1 pre2 heq
          have := hno (L :: pre1) L1 pre2 (by rw [heq]; rfl)
          simpa [worldAfter, hr] using this)
        (by
          have : worldAfter args (List.map Prod.fst (L :: rest)) w
              = worldAfter args (List.map Prod.fst rest) w2 := by
            simp [worldAfter, hr]
          rw [← this]
          exact hfail)
      rw [this]

end Delivery

section Runs

variable {Ty : Type} [DecidableEq Ty] {Val : Ty → Type} {World Err : Type}

theorem step_register {c : ChannelId Ty} {callback : CallbackType Val World Err c}
    {name : String} {p : Addr} {s s1 : Sys Val World Err} {log : List Nat}
    (h : (Op.register c callback name p).step s = some (s1, log)) :
    s.heap p = none ∧ s1 = (HookableEvent.Register c callback name p s).2 ∧ log = [] := by
  simp only [Op.step] at h
  split at h
  · rename_i hp
    simp only [Option.some.injEq, Prod.mk.injEq] at h
    exact ⟨by simpa using hp, h.1.symm, h.2.symm⟩
  · cases h

theorem step_destroy {hook : EventHook} {s s1 : Sys Val World Err} {log : List Nat}
    (h : (Op.destroy hook : Op Val World Err).step s = some (s1, log)) :
    EventHook.destroy hook s = some s1 ∧ log = [] := by
  simp only [Op.step, Option.map_eq_some', Prod.mk.injEq] at h
  obtain ⟨s2, h2, h3, h4⟩ := h
  subst h3
  exact ⟨h2, h4.symm⟩

theorem destroy_eq {hook : EventHook} {s : Sys Val World Err} {cell : Cell Val World Err}
    (hcell : s.heap hook = some cell) :
    EventHook.destroy hook s = some
      { HookableEvent.Remove cell.chan hook s with
        heap := fun q => if q = hook then none else s.heap q } := by
  simp [EventHook.destroy, hcell, HookableEvent.Remove]

/-- Registering a list of listeners on `c`, one after the other. -/
theorem run_register_all (c : ChannelId Ty) (Ls : List (HookImpl Val World Err c × Addr))
    (s s1 : Sys Val World Err) (log : List Nat)
    (hrun : Op.run (Ls.map (fun L => Op.register c L.1.m_fn L.1.m_name L.2)) s = some (s1, log)) :
    s1.m_listeners c = s.m_listeners c ++ Ls.map Prod.snd ∧
    (∀ d, d ≠ c → s1.m_listeners d = s.m_listeners d) ∧
    (∀ L ∈ Ls, s1.deref c L.2 = some L.1) ∧
    (∀ q cell, s.heap q = some cell → s1.heap q = some cell) ∧
    (∀ L ∈ Ls, s.heap L.2 = none) ∧
    (Ls.map Prod.snd).Nodup ∧ s1.world = s.world ∧ log = [] := by
  induction Ls generalizing s log with
  | nil =>
    simp only [List.map_nil, Op.run, Option.some.injEq, Prod.mk.injEq] at hrun
    obtain ⟨h1, h2⟩ := hrun
    subst h1
    simp [h2.symm]
  | cons L rest ih =>
    simp only [List.map_cons] at hrun
    obtain ⟨s0, log1, log2, hstep, hrest, hlog⟩ := run_cons hrun
    obtain ⟨hfresh, hs0, hlog1⟩ := step_register hstep
    obtain ⟨i1, i2, i3, i4, i5, i6, i7, i8⟩ := ih s0 log2 hrest
    have hheapL : s0.heap L.2 = some ⟨c, L.1, s.serials⟩ := by
      rw [hs0]; simp [HookableEvent.Register]
    have hkeep : ∀ q cell, s.heap q = some cell → s0.heap q = some cell := by
      intro q cell hq
      have hne : q ≠ L.2 := by
        intro h; rw [h, hfresh] at hq; cases hq
      rw [hs0]; simp [HookableEvent.Register, hne, hq]
    refine ⟨?_, ?_, ?_, ?_, ?_, ?_, ?_, ?_⟩
    · rw [i1, hs0]; simp [HookableEvent.Register]
    · intro d hd
      rw [i2 d hd, hs0]; simp [HookableEvent.Register, hd]
    · intro L1 hL1
      simp only [List.mem_cons] at hL1
      rcases hL1 with hL1 | hL1
      · subst hL1
        exact deref_of_heap (i4 _ _ hheapL)
      · exact i3 L1 hL1
    · intro q cell hq
      exact i4 q cell (hkeep q cell hq)
    · intro L1 hL1
      simp only [List.mem_cons] at hL1
      rcases hL1 with hL1 | hL1
      · subst hL1; exact hfresh
      · have := i5 L1 hL1
        rw [hs0] at this
        simp only [HookableEvent.Register] at this
        by_cases hq : L1.2 = L.2
        · simp [hq] at this
        · simpa [hq] using this
    · simp only [List.map_cons, List.nodup_cons]
      refine ⟨?_, i6⟩
      intro hmem
      obtain ⟨L1, hL1, hq⟩ := List.mem_map.mp hmem
      have := i5 L1 hL1
      rw [hq, hheapL] at this
      cases this
    · rw [i7, hs0]; rfl
    · rw [hlog, hlog1, i8]; rfl

theorem step_retired {s s1 : Sys Val World Err} {log : List Nat} {u : Nat}
    (hu : s.Retired u) (op : Op Val World Err) (h : op.step s = some (s1, log)) :
    s1.Retired u ∧ u ∉ log := by
  cases op with
  | register c callback name p =>
    obtain ⟨_, h1, h2⟩ := step_register h
    subst h1 h2
    refine ⟨⟨?_, ?_⟩, by simp⟩
    · simp only [HookableEvent.Register]
      exact Nat.lt_succ_of_lt hu.1
    · intro q cell hq
      simp only [HookableEvent.Register] at hq
      by_cases hqp : q = p
      · simp only [hqp, if_true, Option.some.injEq] at hq
        subst hq
        simp only
        exact Nat.ne_of_gt hu.1
      · simp only [hqp, if_false] at hq
        exact hu.2 q cell hq
  | trigger c args =>
    simp only [Op.step, Option.some.injEq, Prod.mk.injEq] at h
    obtain ⟨h1, h2⟩ := h
    subst h1 h2
    refine ⟨⟨hu.1, hu.2⟩, ?_⟩
    intro hmem
    obtain ⟨call, _, hcall⟩ := List.mem_filterMap.mp hmem
    simp only [Sys.serialAt, Option.map_eq_some'] at hcall
    obtain ⟨cell, hcell, hser⟩ := hcall
    exact hu.2 _ cell hcell hser
  | destroy hook =>
    obtain ⟨h1, h2⟩ := step_destroy h
    subst h2
    refine ⟨⟨?_, ?_⟩, by simp⟩
    · cases hcell : s.heap hook with
      | none => simp [EventHook.destroy, hcell] at h1
      | some cell =>
        rw [destroy_eq hcell] at h1
        simp only [Option.some.injEq] at h1
        subst h1
        exact hu.1
    · intro q cell1 hq
      cases hcell : s.heap hook with
      | none => simp [EventHook.destroy, hcell] at h1
      | some cell =>
        rw [destroy_eq hcell] at h1
        simp only [Option.some.injEq] at h1
        subst h1
        simp only at hq
        by_cases hqh : q = hook
        · simp [hqh] at hq
        · simp only [hqh, if_false] at hq
          exact hu.2 q cell1 hq

theorem run_retired {ops : List (Op Val World Err)} {s s2 : Sys Val World Err}
    {log : List Nat} {u : Nat} (hu : s.Retired u) (h : Op.run ops s = some (s2, log)) :
    s2.Retired u ∧ u ∉ log := by
  induction ops generalizing s log with
  | nil =>
    simp only [Op.run, Option.some.injEq, Prod.mk.injEq] at h
    obtain ⟨h1, h2⟩ := h
    subst h1 h2
    exact ⟨hu, by simp⟩
  | cons op ops ih =>
    obtain ⟨s1, log1, log2, h1, h2, h3⟩ := run_cons h
    obtain ⟨hu1, hl1⟩ := step_retired hu op h1
    obtain ⟨hu2, hl2⟩ := ih hu1 h2
    refine ⟨hu2, ?_⟩
    rw [h3]
    simp [hl1, hl2]

theorem destroy_retired {s s1 : Sys Val World Err} (hs : s.WF) {hook : EventHook} {u : Nat}
    (hu : s.serialAt hook = some u) (hd : EventHook.destroy hook s = some s1) :
    s1.Retired u := by
  simp only [Sys.serialAt, Option.map_eq_some'] at hu
  obtain ⟨cell, hcell, hser⟩ := hu
  rw [destroy_eq hcell] at hd
  simp only [Option.some.injEq] at hd
  subst hd
  refine ⟨?_, ?_⟩
  · have := hs.serial_lt hook cell hcell
    rw [hser] at this
    exact this
  · intro q cell1 hq hser1
    simp only at hq
    by_cases hqh : q = hook
    · simp [hqh] at hq
    · simp only [hqh, if_false] at hq
      exact hqh (hs.serial_inj q hook cell1 cell hq hcell (by rw [hser1, hser]))

end Runs

section RunsB

variable {Ty : Type} [DecidableEq Ty] {Val : Ty → Type} {World Err : Type}

theorem destroy_listeners {s s1 : Sys Val World Err} {hook : EventHook}
    {cell : Cell Val World Err} (hcell : s.heap hook = some cell)
    (hd : EventHook.destroy hook s = some s1) :
    s1.m_listeners cell.chan = (s.m_listeners cell.chan).filter (fun q => decide (q ≠ hook)) ∧
    (∀ d, d ≠ cell.chan → s1.m_listeners d = s.m_listeners d) ∧
    s1.serials = s.serials ∧ s1.world = s.world := by
  rw [destroy_eq hcell] at hd
  simp only [Option.some.injEq] at hd
  subst hd
  refine ⟨by simp [HookableEvent.Remove], ?_, rfl, rfl⟩
  intro d hd
  simp [HookableEvent.Remove, hd]

/-- Destroying the handles of listeners of `c`, one after the other. -/
theorem run_destroy_all (c : ChannelId Ty) (order : List Addr) (s : Sys Val World Err)
    (hs : s.WF) (hnodup : order.Nodup) (hmem : ∀ q ∈ order, q ∈ s.m_listeners c) :
    ∃ s1, Op.run (order.map (fun q => (Op.destroy q : Op Val World Err))) s = some (s1, []) ∧
      s1.WF ∧ (∀ q, q ∈ s1.m_listeners c ↔ q ∈ s.m_listeners c ∧ q ∉ order) ∧
      (∀ d, d ≠ c → s1.m_listeners d = s.m_listeners d) ∧
      s1.serials = s.serials ∧ s1.world = s.world := by
  induction order generalizing s with
  | nil => exact ⟨s, rfl, hs, by simp, fun _ _ => rfl, rfl, rfl⟩
  | cons h rest ih =>
    obtain ⟨cell, hcell, hchan⟩ := hs.live c h (hmem h (List.mem_cons_self _ _))
    subst hchan
    have hd := destroy_eq hcell
    obtain ⟨l1, l2, l3, l4⟩ := destroy_listeners hcell hd
    have hwf := destroy_wf hs h hd
    rw [List.nodup_cons] at hnodup
    obtain ⟨s1, r1, r2, r3, r4, r5, r6⟩ := ih _ hwf hnodup.2 (by
      intro q hq
      rw [l1]
      refine List.mem_filter.mpr ⟨hmem q (List.mem_cons_of_mem _ hq), ?_⟩
      have : q ≠ h := fun hqh => hnodup.1 (hqh ▸ hq)
      simpa using this)
    refine ⟨s1, ?_, r2, ?_, ?_, ?_, ?_⟩
    · simp only [List.map_cons, Op.run, Op.step, hd, Option.map_some', r1, List.append_nil]
    · intro q
      rw [r3 q, l1, List.mem_filter]
      simp only [ne_eq, decide_not, Bool.not_eq_eq_eq_not, Bool.not_true, decide_eq_false_iff_not,
        List.mem_cons, not_or]
      tauto
    · intro d hdc
      rw [r4 d hdc, l2 d hdc]
    · rw [r5, l3]
    · rw [r6, l4]

end RunsB

section DeliveryB

variable {Ty : Type} [DecidableEq Ty] {Val : Ty → Type} {World Err : Type}

/-- A loop over pointers to live objects of the channel never ends undefined. -/
theorem forEach_defined (s : Sys Val World Err) (c : ChannelId Ty)
    (args : ArgPack Val c.CallbackArgs) (ps : List Addr) (w : World)
    (hps : ∀ p ∈ ps, ∃ h, s.deref c p = some h) :
    (HookableEvent.forEach s c args ps w).completion ≠ Completion.undefined := by
  induction ps generalizing w with
  | nil => intro h; cases h
  | cons p rest ih =>
    obtain ⟨hk, hd⟩ := hps p (List.mem_cons_self _ _)
    unfold HookableEvent.forEach
    rw [hd]
    simp only
    cases hr : hk.m_fn args w with
    | mk w1 oe =>
      cases oe with
      | some e => intro h; cases h
      | none => exact ih w1 (fun q hq => hps q (List.mem_cons_of_mem _ hq))

/-- A loop that returns has called every pointer it was given, in order. -/
theorem forEach_returned (s : Sys Val World Err) (c : ChannelId Ty)
    (args : ArgPack Val c.CallbackArgs) (ps : List Addr) (w : World)
    (h : (HookableEvent.forEach s c args ps w).completion = Completion.returned) :
    (HookableEvent.forEach s c args ps w).invoked = ps.map (fun p => (p, args)) := by
  induction ps generalizing w with
  | nil => rfl
  | cons p rest ih =>
    unfold HookableEvent.forEach at h ⊢
    cases hd : s.deref c p with
    | none => rw [hd] at h; cases h
    | some hk =>
      rw [hd] at h
      simp only at h ⊢
      cases hr : hk.m_fn args w with
      | mk w1 oe =>
        rw [hr] at h
        cases oe with
        | some e => cases h
        | none =>
          simp only at h ⊢
          rw [ih w1 h]
          rfl

end DeliveryB


/-! ## Lemmas on callbacks that call the class -/

namespace Nested

section NestedLemmas

variable {Ty : Type} [DecidableEq Ty] {Val : Ty → Type} {World Err : Type}

end NestedLemmas

section BridgeLemmas

variable {Ty : Type} [DecidableEq Ty] {Val : Ty → Type} {World Err : Type}

theorem ofPlain_deref (s : Common.Sys Val World Err) (held : ChannelId Ty → Bool)
    (c : ChannelId Ty) (p : Addr) :
    (ofPlain s held).deref c p = (s.deref c p).map ofCallback := by
  unfold Sys.deref Common.Sys.deref ofPlain
  dsimp only
  cases hcell : s.heap p with
  | none => rfl
  | some cell =>
    obtain ⟨chan, impl, serial⟩ := cell
    by_cases hc : chan = c
    · subst hc
      simp
    · simp [hc]

/-- The loop of this part, on callbacks of the first part, does what the loop of
the first part does. -/
theorem forEach_ofPlain (s : Common.Sys Val World Err) (held : ChannelId Ty → Bool)
    (c : ChannelId Ty) (args : ArgPack Val c.CallbackArgs) (depth : Nat) (ps : List Addr)
    (w : World) :
    HookableEvent.forEach (exec (depth + 1)) c args ps (ofPlain { s with world := w } held) =
      ⟨ofPlain { s with world := (Common.HookableEvent.forEach s c args ps w).world } held,
       (Common.HookableEvent.forEach s c args ps w).invoked.map (fun call => Event.invoke c call.1),
       ofCompletion (Common.HookableEvent.forEach s c args ps w).completion⟩ := by
  induction ps generalizing w with
  | nil => rfl
  | cons p rest ih =>
    unfold HookableEvent.forEach Common.HookableEvent.forEach
    have hd := ofPlain_deref { s with world := w } held c p
    have hd2 : Common.Sys.deref { s with world := w } c p = s.deref c p := rfl
    rw [hd, hd2]
    cases hk : s.deref c p with
    | none => rfl
    | some h =>
      simp only [Option.map_some']
      cases hr : h.m_fn args w with
      | mk w1 oe =>
        cases oe with
        | some e =>
          simp [ofCallback, exec, execWith, Stmt.run, hr, ofPlain, ofCompletion]
        | none =>
          have hstep : exec (depth + 1) ((ofCallback h).m_fn args)
              (ofPlain { s with world := w } held)
              = ⟨ofPlain { s with world := w1 } held, [], Exit.returned⟩ := by
            simp [ofCallback, exec, execWith, Stmt.run, hr, ofPlain]
          rw [hstep]
          simp only [ih w1, List.nil_append, List.map_cons]

/-- `Trigger` of this part, on a state of the first part with no mutex held,
does what `Trigger` of the first part does. -/
theorem Trigger_ofPlain (s : Common.Sys Val World Err) (c : ChannelId Ty)
    (args : ArgPack Val c.CallbackArgs) (depth : Nat) :
    (HookableEvent.Trigger (exec (depth + 1)) c args (ofPlain s (fun _ => false))).exit
      = ofCompletion (Common.HookableEvent.Trigger c args s).completion ∧
    (HookableEvent.Trigger (exec (depth + 1)) c args (ofPlain s (fun _ => false))).trace
      = Event.trigger c ::
        (Common.HookableEvent.Trigger c args s).invoked.map (fun call => Event.invoke c call.1) ∧
    (HookableEvent.Trigger (exec (depth + 1)) c args (ofPlain s (fun _ => false))).sys.world
      = (Common.HookableEvent.Trigger c args s).sys.world ∧
    (HookableEvent.Trigger (exec (depth + 1)) c args (ofPlain s (fun _ => false))).sys.m_listeners
      = s.m_listeners ∧
    (HookableEvent.Trigger (exec (depth + 1)) c args (ofPlain s (fun _ => false))).sys.heap
      = (ofPlain s (fun _ => false)).heap := by
  have hlock : (ofPlain s (fun _ => false)).lock c
      = ofPlain { s with world := s.world } (fun d => if d = c then true else false) := rfl
  have key := forEach_ofPlain s (fun d => if d = c then true else false) c args depth
    (s.m_listeners c) s.world
  unfold HookableEvent.Trigger Common.HookableEvent.Trigger
  have hm : (ofPlain s (fun _ => false)).m_mutex c = false := rfl
  have hl : (ofPlain s (fun _ => false)).m_listeners c = s.m_listeners c := rfl
  rw [if_neg (by rw [hm]; simp), hl, hlock, key]
  simp only
  cases hcomp : (Common.HookableEvent.forEach s c args (s.m_listeners c) s.world).completion <;>
    simp [ofCompletion, ofPlain, Sys.unlock]

end BridgeLemmas

end Nested

/-! ## Properties stated by the specification -/

section Claims

variable {Ty : Type} [DecidableEq Ty] {Val : Ty → Type} {World Err : Type}

/-- C1. Registration-order delivery. On a channel `c` whose registry is empty,
register the listeners `Ls` (callback, name, and the address the allocator
gives) in list order. If the following `Trigger(args)` is not left by a
callback failure, it calls exactly the pointers of `Ls`, in registration
order, each with `args`; the pointers are pairwise distinct and the `i`-th
points to the `i`-th listener, so each listener is called exactly once; the
call returns and the collaborator state is the one obtained by running the
callbacks in that order on `args`. -/
theorem HookableEvent.trigger_registration_order (s s1 : Sys Val World Err) (c : ChannelId Ty)
    (hempty : s.m_listeners c = []) (Ls : List (HookImpl Val World Err c × Addr))
    (log : List Nat)
    (hrun : Op.run (Ls.map (fun L => Op.register c L.1.m_fn L.1.m_name L.2)) s = some (s1, log))
    (args : ArgPack Val c.CallbackArgs)
    (hok : ∀ e, (HookableEvent.Trigger c args s1).completion ≠ Completion.raised e) :
    (HookableEvent.Trigger c args s1).invoked = Ls.map (fun L => (L.2, args)) ∧
    (Ls.map Prod.snd).Nodup ∧
    (∀ L ∈ Ls, s1.deref c L.2 = some L.1) ∧
    (HookableEvent.Trigger c args s1).completion = Completion.returned ∧
    (HookableEvent.Trigger c args s1).sys.world = worldAfter args (Ls.map Prod.fst) s.world := by
  obtain ⟨h1, _, h3, _, _, h6, h7, _⟩ := run_register_all c Ls s s1 log hrun
  rw [hempty, List.nil_append] at h1
  have hok1 : ∀ e, (HookableEvent.forEach s1 c args (Ls.map Prod.snd) s1.world).completion
      ≠ Completion.raised e := by
    intro e
    have := hok e
    simp only [HookableEvent.Trigger, h1] at this
    exact this
  have key := forEach_no_failure s1 c args Ls h3 s1.world hok1
  rw [h7] at key
  refine ⟨?_, h6, h3, ?_, ?_⟩ <;> simp only [HookableEvent.Trigger, h1, h7, key]

/-- C2. Handle drop removes the listener. In a reachable state let `hook` be
registered on `c` and point to the listener with serial number `u`. Destroying
the handle succeeds, and whatever calls follow (`Register`, `Trigger`, handle
destruction, on any channel), no `Trigger` among them and no `Trigger` made
after them calls the listener `u`. -/
theorem HookableEvent.destroyed_never_invoked (s : Sys Val World Err) (hs : s.Reachable)
    (c : ChannelId Ty) (hook : EventHook) (u : Nat) (hreg : hook ∈ s.m_listeners c)
    (hu : s.serialAt hook = some u) :
    ∃ s1, EventHook.destroy hook s = some s1 ∧
      ∀ (ops : List (Op Val World Err)) (s2 : Sys Val World Err) (log : List Nat),
        Op.run ops s1 = some (s2, log) →
        u ∉ log ∧
        ∀ (d : ChannelId Ty) (args : ArgPack Val d.CallbackArgs),
          ∀ call ∈ (HookableEvent.Trigger d args s2).invoked, s2.serialAt call.1 ≠ some u := by
  obtain ⟨cell, hcell, _⟩ := hs.wf.live c hook hreg
  refine ⟨_, destroy_eq hcell, ?_⟩
  intro ops s2 log hrun
  have hret := destroy_retired hs.wf hu (destroy_eq hcell)
  obtain ⟨hret2, hlog⟩ := run_retired hret hrun
  refine ⟨hlog, ?_⟩
  intro d args call _ hser
  simp only [Sys.serialAt, Option.map_eq_some'] at hser
  obtain ⟨cell2, hc2, hs2⟩ := hser
  exact hret2.2 _ cell2 hc2 hs2

/-- C3. Removal is by pointer identity. In a reachable state let `hook` be in
the registry of `c`. The registry splits as `pre ++ hook :: post` with `hook`
in neither part; `Remove(hook)` leaves `pre ++ post`, touches no other registry
and no object, and so does the destruction of the handle. A listener at
another address stays registered also when its callback and name equal those
of the removed one. -/
theorem HookableEvent.remove_by_identity (s : Sys Val World Err) (hs : s.Reachable)
    (c : ChannelId Ty) (hook : EventHook) (hreg : hook ∈ s.m_listeners c) :
    ∃ pre post, s.m_listeners c = pre ++ hook :: post ∧ hook ∉ pre ∧ hook ∉ post ∧
      (HookableEvent.Remove c hook s).m_listeners c = pre ++ post ∧
      (∀ d, d ≠ c → (HookableEvent.Remove c hook s).m_listeners d = s.m_listeners d) ∧
      (HookableEvent.Remove c hook s).heap = s.heap ∧
      (∃ s1, EventHook.destroy hook s = some s1 ∧ s1.m_listeners c = pre ++ post) ∧
      (∀ q, q ∈ s.m_listeners c → q ≠ hook → s.deref c q = s.deref c hook →
        q ∈ (HookableEvent.Remove c hook s).m_listeners c) := by
  obtain ⟨pre, post, hsplit⟩ := List.append_of_mem hreg
  have hnd := hs.wf.nodup c
  rw [hsplit] at hnd
  have hpre : hook ∉ pre := by
    intro h
    have := (List.nodup_append.mp hnd).2.2
    exact this h (List.mem_cons_self _ _)
  have hpost : hook ∉ post := by
    have := (List.nodup_append.mp hnd).2.1
    exact (List.nodup_cons.mp this).1
  have hfilter : (pre ++ hook :: post).filter (fun q => decide (q ≠ hook)) = pre ++ post := by
    rw [List.filter_append, List.filter_cons]
    simp only [ne_eq, not_true_eq_false, decide_False, Bool.false_eq_true, if_false]
    rw [List.filter_eq_self.mpr, List.filter_eq_self.mpr]
    · intro a ha
      have : a ≠ hook := fun h => hpost (h ▸ ha)
      simpa using this
    · intro a ha
      have : a ≠ hook := fun h => hpre (h ▸ ha)
      simpa using this
  have hrem : (HookableEvent.Remove c hook s).m_listeners c = pre ++ post := by
    simp only [HookableEvent.Remove, if_true, hsplit]
    exact hfilter
  obtain ⟨cell, hcell, hchan⟩ := hs.wf.live c hook hreg
  refine ⟨pre, post, hsplit, hpre, hpost, hrem, ?_, rfl, ?_, ?_⟩
  · intro d hd
    simp [HookableEvent.Remove, hd]
  · refine ⟨_, destroy_eq hcell, ?_⟩
    subst hchan
    exact hrem
  · intro q hq hne _
    rw [hrem]
    rw [hsplit] at hq
    simp only [List.mem_append, List.mem_cons] at hq ⊢
    rcases hq with hq | hq | hq
    · exact Or.inl hq
    · exact absurd hq hne
    · exact Or.inr hq

/-- C4. Registry invariant. In every state reached from program start by
`Register`, `Trigger` and handle destruction: every entry of a registry points
to a live `HookImpl` of that channel, and every live `HookImpl` occurs exactly
once in the registry of its own channel and in no other registry; hence no
`Trigger` dereferences a pointer to no live object. -/
theorem HookableEvent.registry_invariant (s : Sys Val World Err) (hs : s.Reachable) :
    (∀ c p, p ∈ s.m_listeners c → ∃ cell, s.heap p = some cell ∧ cell.chan = c) ∧
    (∀ p cell, s.heap p = some cell →
      (s.m_listeners cell.chan).count p = 1 ∧ ∀ d, d ≠ cell.chan → p ∉ s.m_listeners d) ∧
    (∀ (c : ChannelId Ty) (args : ArgPack Val c.CallbackArgs),
      (HookableEvent.Trigger c args s).completion ≠ Completion.undefined) := by
  have hwf := hs.wf
  refine ⟨hwf.live, ?_, ?_⟩
  · intro p cell hcell
    refine ⟨List.count_eq_one_of_mem (hwf.nodup _) (hwf.listed p cell hcell), ?_⟩
    intro d hd hmem
    obtain ⟨cell1, h1, h2⟩ := hwf.live d p hmem
    rw [hcell] at h1
    simp only [Option.some.injEq] at h1
    subst h1
    exact hd h2.symm
  · intro c args
    refine forEach_defined s c args _ _ ?_
    intro p hp
    obtain ⟨cell, h1, h2⟩ := hwf.live c p hp
    exact deref_of_live h1 h2

end Claims

section ClaimsB

variable {Ty : Type} [DecidableEq Ty] {Val : Ty → Type} {World Err : Type}

/-- C5. Trigger does not catch listener failures. In a reachable state let the
registry of `c` be the listeners `Lpre`, then `Lk`, then `post`, where every
listener of `Lpre` ends without failure when run after those before it, and
`Lk`, run after all of `Lpre`, raises `e` leaving the collaborator state
`w1`. Then `Trigger(args)` is left by the failure `e`, has called exactly the
pointers of `Lpre` and then `Lk`, in order and each with `args`, no pointer
twice, none of `post`, and the collaborator state is `w1`. -/
theorem HookableEvent.trigger_first_failure (s : Sys Val World Err) (hs : s.Reachable)
    (c : ChannelId Ty) (args : ArgPack Val c.CallbackArgs)
    (Lpre : List (HookImpl Val World Err c × Addr)) (Lk : HookImpl Val World Err c × Addr)
    (post : List Addr)
    (hreg : s.m_listeners c = Lpre.map Prod.snd ++ Lk.2 :: post)
    (hpre : ∀ L ∈ Lpre, s.deref c L.2 = some L.1) (hk : s.deref c Lk.2 = some Lk.1)
    (w1 : World) (e : Err)
    (hno : ∀ pre1 L pre2, Lpre = pre1 ++ L :: pre2 →
      (L.1.m_fn args (worldAfter args (pre1.map Prod.fst) s.world)).2 = none)
    (hfail : Lk.1.m_fn args (worldAfter args (Lpre.map Prod.fst) s.world) = (w1, some e)) :
    (HookableEvent.Trigger c args s).completion = Completion.raised e ∧
    (HookableEvent.Trigger c args s).invoked =
      (Lpre.map Prod.snd ++ [Lk.2]).map (fun p => (p, args)) ∧
    ((HookableEvent.Trigger c args s).invoked.map Prod.fst).Nodup ∧
    (∀ q ∈ post, q ∉ (HookableEvent.Trigger c args s).invoked.map Prod.fst) ∧
    (HookableEvent.Trigger c args s).sys.world = w1 := by
  have key := forEach_first_failure s c args Lpre Lk post hpre hk s.world w1 e hno hfail
  have hnd := hs.wf.nodup c
  rw [hreg] at hnd
  have hmap : ((Lpre.map Prod.snd ++ [Lk.2]).map (fun p => (p, args))).map Prod.fst
      = Lpre.map Prod.snd ++ [Lk.2] := by
    rw [List.map_map]
    exact List.map_id _
  have hnd2 : (Lpre.map Prod.snd ++ [Lk.2] ++ post).Nodup := by
    simpa using hnd
  refine ⟨?_, ?_, ?_, ?_, ?_⟩
  · simp only [HookableEvent.Trigger, hreg, key]
  · simp only [HookableEvent.Trigger, hreg, key]
  · simp only [HookableEvent.Trigger, hreg, key]
    rw [hmap]
    exact (List.nodup_append.mp hnd2).1
  · intro q hq
    simp only [HookableEvent.Trigger, hreg, key]
    rw [hmap]
    intro hmem
    exact (List.nodup_append.mp hnd2).2.2 hmem hq
  · simp only [HookableEvent.Trigger, hreg, key]

/-- C7. Idempotent emptiness. In a reachable state destroy the handles of all
listeners of `c`, in any order `order`: this succeeds and leaves the registry
of `c` empty. Register then one listener (at any address `p` free at that
time): the next `Trigger(args)` calls exactly `p`, once, with `args`; `p` points
to the new listener, whose serial number is above that of every listener that
was alive before the destructions (so it is none of them, also when `p` is an
address one of them had). -/
theorem HookableEvent.reregister_after_emptying (s : Sys Val World Err) (hs : s.Reachable)
    (c : ChannelId Ty) (order : List Addr) (hperm : order.Perm (s.m_listeners c)) :
    ∃ s1, Op.run (order.map (fun q => (Op.destroy q : Op Val World Err))) s = some (s1, []) ∧
      s1.m_listeners c = [] ∧
      ∀ (callback : CallbackType Val World Err c) (name : String) (p : Addr)
        (args : ArgPack Val c.CallbackArgs), s1.heap p = none →
        (HookableEvent.Trigger c args (HookableEvent.Register c callback name p s1).2).invoked
          = [(p, args)] ∧
        (HookableEvent.Register c callback name p s1).2.deref c p = some ⟨callback, name⟩ ∧
        (HookableEvent.Register c callback name p s1).2.serialAt p = some s.serials ∧
        (∀ q cell, s.heap q = some cell → cell.serial < s.serials) ∧
        (HookableEvent.Trigger c args (HookableEvent.Register c callback name p s1).2).sys.world
          = (callback args s.world).1 := by
  have hnd : order.Nodup := hperm.nodup_iff.mpr (hs.wf.nodup c)
  obtain ⟨s1, r1, _, r3, _, r5, r6⟩ := run_destroy_all c order s hs.wf hnd
    (fun q hq => hperm.mem_iff.mp hq)
  have hnil : s1.m_listeners c = [] := by
    rw [List.eq_nil_iff_forall_not_mem]
    intro q hq
    have := (r3 q).mp hq
    exact this.2 (hperm.mem_iff.mpr this.1)
  refine ⟨s1, r1, hnil, ?_⟩
  intro callback name p args _
  have hreg : (HookableEvent.Register c callback name p s1).2.m_listeners c = [p] := by
    simp [HookableEvent.Register, hnil]
  have hderef : (HookableEvent.Register c callback name p s1).2.deref c p
      = some ⟨callback, name⟩ := by
    simp [HookableEvent.Register, Sys.deref]
  have hworld : (HookableEvent.Register c callback name p s1).2.world = s.world := r6
  refine ⟨?_, hderef, ?_, hs.wf.serial_lt, ?_⟩
  · simp only [HookableEvent.Trigger, hreg]
    unfold HookableEvent.forEach
    rw [hderef]
    simp only
    cases hr : callback args (HookableEvent.Register c callback name p s1).2.world with
    | mk w1 oe =>
      cases oe with
      | some e => rfl
      | none => rfl
  · simp [HookableEvent.Register, Sys.serialAt, r5]
  · simp only [HookableEvent.Trigger, hreg]
    unfold HookableEvent.forEach
    rw [hderef]
    simp only
    rw [hworld]
    cases hr : callback args s.world with
    | mk w1 oe =>
      cases oe with
      | some e => rfl
      | none => rfl

/-- C8. No-listener no-op. `Trigger(args)` on a channel with an empty registry
calls nothing, returns, and leaves the whole state, the registry included, as
it was. -/
theorem HookableEvent.trigger_empty (s : Sys Val World Err) (c : ChannelId Ty)
    (args : ArgPack Val c.CallbackArgs) (hempty : s.m_listeners c = []) :
    (HookableEvent.Trigger c args s).invoked = [] ∧
    (HookableEvent.Trigger c args s).completion = Completion.returned ∧
    (HookableEvent.Trigger c args s).sys = s ∧
    (HookableEvent.Trigger c args s).sys.m_listeners c = [] := by
  simp only [HookableEvent.Trigger, hempty, HookableEvent.forEach]
  exact ⟨trivial, trivial, trivial, trivial⟩

/-- C10. Trigger never changes the registry. However the call ends,
`Trigger(args)` leaves every registry and every listener object as it was; so a
second `Trigger` right after it walks the same pointer list, to the same
objects, and when both calls return they have called the same pointers in the
same order. -/
theorem HookableEvent.trigger_keeps_registry (s : Sys Val World Err) (c : ChannelId Ty)
    (args args2 : ArgPack Val c.CallbackArgs) :
    (HookableEvent.Trigger c args s).sys.m_listeners = s.m_listeners ∧
    (HookableEvent.Trigger c args s).sys.heap = s.heap ∧
    (∀ p, (HookableEvent.Trigger c args s).sys.deref c p = s.deref c p) ∧
    ((HookableEvent.Trigger c args s).completion = Completion.returned →
      (HookableEvent.Trigger c args2 (HookableEvent.Trigger c args s).sys).completion
        = Completion.returned →
      (HookableEvent.Trigger c args2 (HookableEvent.Trigger c args s).sys).invoked.map Prod.fst
        = (HookableEvent.Trigger c args s).invoked.map Prod.fst) := by
  refine ⟨rfl, rfl, fun _ => rfl, ?_⟩
  intro h1 h2
  have e1 := forEach_returned s c args (s.m_listeners c) s.world h1
  have e2 := forEach_returned (HookableEvent.Trigger c args s).sys c args2
    (s.m_listeners c) _ h2
  simp only [HookableEvent.Trigger] at e1 e2 ⊢
  rw [e1, e2, List.map_map, List.map_map]
  rfl

end ClaimsB

namespace Nested

section NestedClaims

variable {Ty : Type} [DecidableEq Ty] {Val : Ty → Type} {World Err : Type}

end NestedClaims

end Nested

end Common

/-! ## The properties on the concrete program -/

namespace Common

namespace Example

theorem registered_reachable : registered.Reachable := ⟨[], registeredOps, [], rfl⟩

theorem twins_reachable : twins.Reachable := ⟨[], twinsOps, [], rfl⟩

theorem withBad_reachable : withBad.Reachable := ⟨[], withBadOps, [], rfl⟩

theorem twoChannels_reachable : twoChannels.Reachable := ⟨[], twoChannelsOps, [], rfl⟩

end Example

section Witnesses

open Example

/-- C1 on the scenario of the specification: with `L1` then `L2` registered,
`Trigger(5)` calls 100 then 200 and records `["first:5", "second:5"]`. -/
theorem HookableEvent.trigger_registration_order_witness :
    start.m_listeners TestEvent = [] ∧
    (HookableEvent.Trigger TestEvent ((5 : Int), ()) registered).invoked
      = [(100, ((5 : Int), ())), (200, ((5 : Int), ()))] ∧
    (HookableEvent.Trigger TestEvent ((5 : Int), ()) registered).completion
      = Completion.returned ∧
    (HookableEvent.Trigger TestEvent ((5 : Int), ()) registered).sys.world
      = ["first:5", "second:5"] :=
  have h := HookableEvent.trigger_registration_order start registered TestEvent rfl
    [(first, 100), (second, 200)] [] rfl ((5 : Int), ())
    (fun e h => Completion.noConfusion (show Completion.returned = Completion.raised e from h))
  ⟨rfl, h.1, h.2.2.2.1, h.2.2.2.2⟩

/-- C2 on the scenario of the specification: after `Trigger(5)`, destroying the
handle of `L1` and calling `Trigger(7)` adds only `"second:7"` to the record;
the listeners called in the whole run are `L1`, `L2`, `L2`. -/
theorem HookableEvent.destroyed_never_invoked_witness :
    (100 ∈ registered.m_listeners TestEvent ∧ registered.serialAt 100 = some 0) ∧
    (∃ s1, EventHook.destroy 100 registered = some s1 ∧
      ∀ (ops : List (Op CType.Val (List String) String)) (s2 : Sys CType.Val (List String) String)
        (log : List Nat), Op.run ops s1 = some (s2, log) →
        0 ∉ log ∧
        ∀ (d : ChannelId CType) (args : ArgPack CType.Val d.CallbackArgs),
          ∀ call ∈ (HookableEvent.Trigger d args s2).invoked, s2.serialAt call.1 ≠ some 0) ∧
    (EventHook.destroy 100 registered).map
      (fun s1 => ((HookableEvent.Trigger TestEvent ((7 : Int), ()) s1).sys.world,
        (HookableEvent.Trigger TestEvent ((7 : Int), ()) s1).invoked.map Prod.fst))
      = some (["second:7"], [200]) ∧
    (Op.run specRun start).map (fun r => (r.1.world, r.2))
      = some (["first:5", "second:5", "second:7"], [0, 1, 1]) :=
  ⟨⟨by decide, rfl⟩,
   HookableEvent.destroyed_never_invoked registered registered_reachable TestEvent 100 0
     (by decide) rfl,
   by decide, by decide⟩

/-- C3 on two listeners with the same callback and name: removing the one at
100 leaves exactly the one at 200. -/
theorem HookableEvent.remove_by_identity_witness :
    (100 ∈ twins.m_listeners TestEvent ∧ twins.deref TestEvent 100 = some first ∧
      twins.deref TestEvent 200 = some first) ∧
    (∃ pre post, twins.m_listeners TestEvent = pre ++ 100 :: post ∧ 100 ∉ pre ∧ 100 ∉ post ∧
      (HookableEvent.Remove TestEvent 100 twins).m_listeners TestEvent = pre ++ post ∧
      (∀ d, d ≠ TestEvent →
        (HookableEvent.Remove TestEvent 100 twins).m_listeners d = twins.m_listeners d) ∧
      (HookableEvent.Remove TestEvent 100 twins).heap = twins.heap ∧
      (∃ s1, EventHook.destroy 100 twins = some s1 ∧ s1.m_listeners TestEvent = pre ++ post) ∧
      (∀ q, q ∈ twins.m_listeners TestEvent → q ≠ 100 →
        twins.deref TestEvent q = twins.deref TestEvent 100 →
        q ∈ (HookableEvent.Remove TestEvent 100 twins).m_listeners TestEvent)) ∧
    (HookableEvent.Remove TestEvent 100 twins).m_listeners TestEvent = [200] :=
  ⟨⟨by decide, rfl, rfl⟩,
   HookableEvent.remove_by_identity twins twins_reachable TestEvent 100 (by decide),
   by decide⟩

/-- C4 on the state with listeners on two channels. -/
theorem HookableEvent.registry_invariant_witness :
    (∀ c p, p ∈ twoChannels.m_listeners c →
      ∃ cell, twoChannels.heap p = some cell ∧ cell.chan = c) ∧
    (∀ p cell, twoChannels.heap p = some cell →
      (twoChannels.m_listeners cell.chan).count p = 1 ∧
      ∀ d, d ≠ cell.chan → p ∉ twoChannels.m_listeners d) ∧
    (∀ (c : ChannelId CType) (args : ArgPack CType.Val c.CallbackArgs),
      (HookableEvent.Trigger c args twoChannels).completion ≠ Completion.undefined) :=
  HookableEvent.registry_invariant twoChannels twoChannels_reachable

/-- C5 on `L1`, a failing listener, `L2`: `Trigger(5)` is left by the failure
after calling 100 and 200, and 300 is not called. -/
theorem HookableEvent.trigger_first_failure_witness :
    withBad.m_listeners TestEvent = [100, 200, 300] ∧
    (HookableEvent.Trigger TestEvent ((5 : Int), ()) withBad).completion
      = Completion.raised "failure" ∧
    (HookableEvent.Trigger TestEvent ((5 : Int), ()) withBad).invoked
      = [(100, ((5 : Int), ())), (200, ((5 : Int), ()))] ∧
    (∀ q ∈ [300],
      q ∉ (HookableEvent.Trigger TestEvent ((5 : Int), ()) withBad).invoked.map Prod.fst) ∧
    (HookableEvent.Trigger TestEvent ((5 : Int), ()) withBad).sys.world
      = ["first:5", "boom"] :=
  have h := HookableEvent.trigger_first_failure withBad withBad_reachable TestEvent
    ((5 : Int), ()) [(first, 100)] (bad, 200) [300] rfl
    (by intro L hL; simp only [List.mem_singleton] at hL; subst hL; rfl) rfl
    ["first:5", "boom"] "failure"
    (by
      intro pre1 L pre2 h
      cases pre1 with
      | nil =>
        have h1 : (first, 100) = L := (List.cons.inj h).1
        subst h1
        rfl
      | cons a t => simp at h)
    rfl
  ⟨rfl, h.1, h.2.1, h.2.2.2.1, h.2.2.2.2⟩

/-- C7 on the scenario: the handles of `L2` and `L1` are destroyed, in that
order, then a listener is registered at the freed address 100; `Trigger(9)`
records only `"third:9"` and calls the listener with serial number 2. -/
theorem HookableEvent.reregister_after_emptying_witness :
    List.Perm [200, 100] (registered.m_listeners TestEvent) ∧
    (∃ s1, Op.run ([200, 100].map
        (fun q => (Op.destroy q : Op CType.Val (List String) String))) registered
        = some (s1, []) ∧
      s1.m_listeners TestEvent = [] ∧
      ∀ (callback : CallbackType CType.Val (List String) String TestEvent) (name : String)
        (p : Addr) (args : ArgPack CType.Val TestEvent.CallbackArgs), s1.heap p = none →
        (HookableEvent.Trigger TestEvent args
          (HookableEvent.Register TestEvent callback name p s1).2).invoked = [(p, args)] ∧
        (HookableEvent.Register TestEvent callback name p s1).2.deref TestEvent p
          = some ⟨callback, name⟩ ∧
        (HookableEvent.Register TestEvent callback name p s1).2.serialAt p
          = some registered.serials ∧
        (∀ q cell, registered.heap q = some cell → cell.serial < registered.serials) ∧
        (HookableEvent.Trigger TestEvent args
          (HookableEvent.Register TestEvent callback name p s1).2).sys.world
          = (callback args registered.world).1) ∧
    (Op.run [Op.destroy 200, Op.destroy 100,
        Op.register TestEvent (recorder TestEvent "third" showInt) "L3" 100,
        Op.trigger TestEvent ((9 : Int), ())] registered).map (fun r => (r.1.world, r.2))
      = some (["third:9"], [2]) :=
  ⟨List.Perm.swap 100 200 [],
   HookableEvent.reregister_after_emptying registered registered_reachable TestEvent [200, 100]
     (List.Perm.swap 100 200 []),
   by decide⟩

/-- C8 at program start: `Trigger(5)` on the empty channel does nothing. -/
theorem HookableEvent.trigger_empty_witness :
    start.m_listeners TestEvent = [] ∧
    (HookableEvent.Trigger TestEvent ((5 : Int), ()) start).invoked = [] ∧
    (HookableEvent.Trigger TestEvent ((5 : Int), ()) start).completion = Completion.returned ∧
    (HookableEvent.Trigger TestEvent ((5 : Int), ()) start).sys = start ∧
    (HookableEvent.Trigger TestEvent ((5 : Int), ()) start).sys.m_listeners TestEvent = [] :=
  ⟨rfl, HookableEvent.trigger_empty start TestEvent ((5 : Int), ()) rfl⟩

/-- C10 on the scenario: `Trigger(5)` then `Trigger(7)` walk the same registry
`[100, 200]`, also when a callback fails in between. -/
theorem HookableEvent.trigger_keeps_registry_witness :
    ((HookableEvent.Trigger TestEvent ((5 : Int), ()) registered).sys.m_listeners
        = registered.m_listeners ∧
      (HookableEvent.Trigger TestEvent ((5 : Int), ()) registered).sys.heap = registered.heap) ∧
    (HookableEvent.Trigger TestEvent ((7 : Int), ())
        (HookableEvent.Trigger TestEvent ((5 : Int), ()) registered).sys).invoked.map Prod.fst
      = [100, 200] ∧
    (HookableEvent.Trigger TestEvent ((5 : Int), ()) withBad).sys.m_listeners TestEvent
      = [100, 200, 300] :=
  have h := HookableEvent.trigger_keeps_registry registered TestEvent ((5 : Int), ())
    ((7 : Int), ())
  ⟨⟨h.1, h.2.1⟩, h.2.2.2 rfl rfl, by decide⟩

end Witnesses

namespace Nested

section NestedWitnesses

open Example Demo

end NestedWitnesses

end Nested

end Common
